import Mathlib

/-!
Verification of the packaging engine in `scripts/build_release.py`.

The Python source is shallowly embedded: pure string manipulation is
modelled over `List Char`, the manifest (`manifest.json` contents) as an
insertion-ordered association list of JSON values, and the filesystem as a
tree of named files and directories.  Python's `int()` is modelled for
ASCII inputs (optional surrounding whitespace, optional sign, decimal
digits with underscore separators); `str.lower()` is modelled exactly on
ASCII (non-ASCII characters are left unchanged, which the slug regex maps
to a hyphen in either reading).
-/

/-! ## Characters and Python `int()` / `str()` primitives -/

/-- Decimal digit test, `'0' ≤ c ≤ '9'`. -/
def isPyDigit (c : Char) : Bool := 48 ≤ c.toNat && c.toNat ≤ 57

/-- Python whitespace characters stripped by `int()` (ASCII subset). -/
def isPySpace (c : Char) : Bool :=
  c == ' ' || c == '\t' || c == '\n' || c == '\x0d' || c == Char.ofNat 11 || c == Char.ofNat 12

/-- Numeric value of a decimal digit character. -/
def digitVal (c : Char) : Nat := c.toNat - 48

/-- Value of a list of decimal digit characters, most significant first. -/
def charsVal (l : List Char) : Nat := l.foldl (fun a c => 10 * a + digitVal c) 0

/-- Digit-or-underscore body check for Python integer literals, matching
the grammar `digit (('_')? digit)*`: the body starts and ends with a
digit, and each `'_'` sits between two digits (so `"1_0"` is accepted,
while `"_1"`, `"1_"` and `"1__0"` are rejected, as in CPython). -/
def pyDigitsOk : List Char → Bool
  | [] => false
  | [c] => isPyDigit c
  | c :: d :: rest =>
    isPyDigit c && cond (d == '_') (pyDigitsOk rest) (pyDigitsOk (d :: rest))

/-- Parse an unsigned decimal body the way Python `int()` does (digits with
optional underscore separators), returning its value. -/
def pyNat? (l : List Char) : Option Nat :=
  if pyDigitsOk l then some (charsVal (l.filter isPyDigit)) else none

/-- Model of Python `int(s)` on ASCII input: strip whitespace, optional
sign, then a digit/underscore body.  `none` models a raised `ValueError`. -/
def pyInt? (l : List Char) : Option Int :=
  let cs := ((l.dropWhile isPySpace).reverse.dropWhile isPySpace).reverse
  match cs with
  | '+' :: rest => (pyNat? rest).map Int.ofNat
  | '-' :: rest => (pyNat? rest).map (fun n => -(Int.ofNat n))
  | rest => (pyNat? rest).map Int.ofNat

/-- The decimal digit character for `n < 10`. -/
def digitCharOf (n : Nat) : Char :=
  match n with
  | 0 => '0' | 1 => '1' | 2 => '2' | 3 => '3' | 4 => '4'
  | 5 => '5' | 6 => '6' | 7 => '7' | 8 => '8' | _ => '9'

/-- Fuel-driven decimal printer for naturals (fuel `n + 1` always
suffices); accumulates digits least-significant-first into `acc`. -/
def natPrintAux : Nat → Nat → List Char → List Char
  | 0, _, acc => acc
  | fuel + 1, n, acc =>
    if n < 10 then digitCharOf n :: acc
    else natPrintAux fuel (n / 10) (digitCharOf (n % 10) :: acc)

/-- Decimal digits of a natural number, as Python `str` renders it. -/
def natPrint (n : Nat) : List Char := natPrintAux (n + 1) n []

/-- Model of Python `str(i)` for an integer. -/
def intPrint (i : Int) : List Char :=
  if i < 0 then '-' :: natPrint i.natAbs else natPrint i.natAbs

/-- Model of Python `s.split('.')`: split at every dot, keeping empty
pieces; the empty string yields one empty piece. -/
def splitDotsChars : List Char → List (List Char)
  | [] => [[]]
  | c :: rest =>
    if c == '.' then [] :: splitDotsChars rest
    else
      match splitDotsChars rest with
      | [] => [[c]]
      | p :: ps => (c :: p) :: ps

/-! ## `Manifest.slug` (build_release.py lines 72-77) -/

/-- Lowercase alphanumeric test, the complement of the slug regex
`[^a-z0-9]`. -/
def goodChar (c : Char) : Bool :=
  (97 ≤ c.toNat && c.toNat ≤ 122) || (48 ≤ c.toNat && c.toNat ≤ 57)

/-- Model of Python `str.lower()` on ASCII: shift `'A'..'Z'` down by 32. -/
def lowerChar (c : Char) : Char :=
  if 65 ≤ c.toNat && c.toNat ≤ 90 then Char.ofNat (c.toNat + 32) else c

/-- Model of `re.sub(r'[^a-z0-9]+', '-', ·)`: replace every maximal run of
non-alphanumeric characters with a single hyphen.  The flag records that a
run is pending a hyphen. -/
def collapseRuns : Bool → List Char → List Char
  | pending, [] => if pending then ['-'] else []
  | pending, c :: rest =>
    if goodChar c then (if pending then ['-', c] else [c]) ++ collapseRuns false rest
    else collapseRuns true rest

/-- Remove every trailing `'-'`, the right half of Python `strip('-')`. -/
def dropTrailingDashes : List Char → List Char
  | [] => []
  | c :: rest =>
    match dropTrailingDashes rest with
    | [] => if c == '-' then [] else [c]
    | r => c :: r

/-- Model of Python `strip('-')`: remove leading and trailing hyphens. -/
def stripDashes (l : List Char) : List Char :=
  dropTrailingDashes (l.dropWhile (fun c => c == '-'))

/-- `Manifest.slug`: lowercase the name, collapse non-alphanumeric runs to
single hyphens, strip boundary hyphens. -/
def slugOfName (name : String) : String :=
  String.mk (stripDashes (collapseRuns false (name.data.map lowerChar)))

/-- Every character is a lowercase alphanumeric or a hyphen. -/
def allSlugChars (l : List Char) : Bool := l.all (fun c => goodChar c || c == '-')

/-- No two adjacent hyphens. -/
def noDoubleDash : List Char → Bool
  | c :: d :: rest => !(c == '-' && d == '-') && noDoubleDash (d :: rest)
  | _ => true

/-- The first character, if any, is not a hyphen. -/
def headNotDash (l : List Char) : Bool :=
  match l with
  | c :: _ => !(c == '-')
  | [] => true

/-- The last character, if any, is not a hyphen. -/
def lastNotDash (l : List Char) : Bool := !(l.getLast? == some '-')

/-- A string is in canonical slug form: only lowercase alphanumerics and
single hyphens, with no hyphen at either end. -/
def slugCanonical (s : String) : Bool :=
  allSlugChars s.data && noDoubleDash s.data && headNotDash s.data && lastNotDash s.data

/-! ## `Manifest.bump_version` (build_release.py lines 99-131) -/

/-- Pad the split version parts with `'0'` pieces on the right until at
least 3 remain, as the `while len(parts) < 3` loop does. -/
def padTo3 (l : List (List Char)) : List (List Char) :=
  l ++ List.replicate (3 - l.length) ['0']

/-- The first three version components after split-and-pad, parsed with
`int()`; `none` models the `ValueError` raised on a non-numeric component.
Components past the third are never parsed. -/
def parsedComponents (v : String) : Option (Int × Int × Int) :=
  match padTo3 (splitDotsChars v.data) with
  | a :: b :: c :: _ =>
    match pyInt? a, pyInt? b, pyInt? c with
    | some x, some y, some z => some (x, y, z)
    | _, _, _ => none
  | _ => none

/-- The increment-and-reset rule on the parsed triple: `'major'` and
`'minor'` are compared by string equality; every other `bump_type` falls
into the `else` (patch) branch. -/
def bumpTriple (bumpType : String) (x y z : Int) : Int × Int × Int :=
  if bumpType = "major" then (x + 1, 0, 0)
  else if bumpType = "minor" then (x, y + 1, 0)
  else (x, y, z + 1)

/-- Reassembly `f'{major}.{minor}.{patch}'` of the bumped triple. -/
def verString (x y z : Int) : String :=
  String.mk (intPrint x ++ '.' :: intPrint y ++ '.' :: intPrint z)

/-- `Manifest.bump_version` at the version-string level: returns the
`(old_version, new_version)` pair, or `none` when `int()` raises. -/
def bump_version_str (old : String) (bumpType : String) : Option (String × String) :=
  match parsedComponents old with
  | some (x, y, z) =>
    let t := bumpTriple bumpType x y z
    some (old, verString t.1 t.2.1 t.2.2)
  | none => none

/-! ## Manifest data (`Manifest._load` / `_save` / `version` setter, lines 52-97) -/

/-- JSON values as `json.load` yields them.  Objects and the manifest
itself are insertion-ordered association lists, mirroring Python dicts
(keys unique); floats are not needed by any claim and are not modelled. -/
inductive Json where
  | str (s : String) : Json
  | num (n : Int) : Json
  | bool (b : Bool) : Json
  | null : Json
  | arr (elems : List Json) : Json
  | obj (fields : List (String × Json)) : Json

/-- Python `d.get(k)` on the manifest dict: the value at the first (and,
keys being unique, only) matching key. -/
def dictGet : List (String × Json) → String → Option Json
  | [], _ => none
  | p :: rest, k => cond (p.1 == k) (some p.2) (dictGet rest k)

/-- Python `d[k] = v`: replace the value at an existing key in place
(keeping its position), else append the new pair at the end. -/
def dictSet (d : List (String × Json)) (k : String) (v : Json) : List (String × Json) :=
  cond (d.any (fun p => p.1 == k))
    (d.map (fun p => cond (p.1 == k) (k, v) p))
    (d ++ [(k, v)])

/-- `Manifest.version` getter: `self._data.get('version', '0.0.0')`.  The
subsequent `.split('.')` in `bump_version` requires a string, so a
non-string value models the raised AttributeError as `none`. -/
def manifestVersion? (d : List (String × Json)) : Option String :=
  match dictGet d "version" with
  | none => some "0.0.0"
  | some (Json.str s) => some s
  | some _ => none

/-- `Manifest.name` getter with its `'extension'` default (a non-string
name does not occur in a manifest; it is modelled by the same default). -/
def manifestName (d : List (String × Json)) : String :=
  match dictGet d "name" with
  | some (Json.str s) => s
  | _ => "extension"

/-- `Manifest.bump_version`: read the current version, bump it, store the
new version back into the dict (the `version` setter immediately persists
exactly this updated dict via `_save`), and return the pair.  `none`
models a raised exception: no assignment and no write happen. -/
def bump_version (d : List (String × Json)) (bumpType : String) :
    Option (List (String × Json) × String × String) :=
  match manifestVersion? d with
  | none => none
  | some old =>
    match bump_version_str old bumpType with
    | none => none
    | some (o, n) => some (dictSet d "version" (Json.str n), o, n)

/-! ## Filesystem model and `ReleaseBuilder` (lines 134-265) -/

mutual
/-- A named filesystem node.  `readable = false` on a file models a file
whose `zipf.write` raises (unreadable or vanished mid-walk). -/
inductive FSTree where
  | file (name : String) (readable : Bool) : FSTree
  | dir (name : String) (children : FSForest) : FSTree
/-- Ordered children of a directory, in `os.scandir` order. -/
inductive FSForest where
  | nil : FSForest
  | cons (hd : FSTree) (tl : FSForest) : FSForest
end

/-- The node's own name (its final path segment). -/
def FSTree.name : FSTree → String
  | .file n _ => n
  | .dir n _ => n

/-- `ReleaseBuilder.EXCLUDE_PATTERNS`. -/
def EXCLUDE_PATTERNS : List String :=
  ["__pycache__", ".git", ".gitignore", ".gitattributes", "node_modules",
   "releases", "docs", "scripts", ".vscode", ".idea", "*.zip", "*.pyc",
   ".DS_Store", "Thumbs.db"]

/-- `ReleaseBuilder.STORE_FILES`. -/
def STORE_FILES : List String := ["manifest.json", "icons", "src"]

/-- `ReleaseBuilder.DOCS_FILES`. -/
def DOCS_FILES : List String := ["README.md", "PRIVACY.md", "LICENSE", "CHANGELOG.md"]

/-- Python `name.endswith(suffix)` over character lists. -/
def endsWithCL (l suffix : List Char) : Bool :=
  List.isPrefixOf suffix.reverse l.reverse

/-- `ReleaseBuilder._should_exclude` on a path given as its list of
segments: `name = os.path.basename(path)`; a pattern starting with `'*'`
matches when the name ends with the remainder, otherwise it must equal the
name or appear among the segments of `path.split(os.sep)`. -/
def should_exclude (segs : List String) : Bool :=
  let nm := segs.getLastD ""
  EXCLUDE_PATTERNS.any (fun pat =>
    cond (pat.data.headD ' ' == '*') (endsWithCL nm.data (pat.data.drop 1))
      (pat == nm || segs.contains pat))

/-- `_should_exclude` applied to a bare name, as the `os.walk` loop in
`_add_to_zip` does for directory and file names. -/
def shouldExcludeName (n : String) : Bool := should_exclude [n]

/-- Files yielded at the current `os.walk` level: every non-excluded file
of the directory, each carrying its `readable` flag. -/
def walkFilePairs : FSForest → List (List String × Bool)
  | .nil => []
  | .cons (.file n rd) tl =>
    (if shouldExcludeName n then [] else [([n], rd)]) ++ walkFilePairs tl
  | .cons (.dir _ _) tl => walkFilePairs tl

/-- Recursive descent of `os.walk` after the in-place pruning
`dirs[:] = [d for d in dirs if not self._should_exclude(d)]`: excluded
directories contribute nothing and are never entered. -/
def walkDirPairs : FSForest → List (List String × Bool)
  | .nil => []
  | .cons (.file _ _) tl => walkDirPairs tl
  | .cons (.dir n cs) tl =>
    (if shouldExcludeName n then []
     else (walkFilePairs cs ++ walkDirPairs cs).map (fun pr => (n :: pr.1, pr.2)))
      ++ walkDirPairs tl

/-- All archive-relative entries `os.walk` produces under a directory: the
current level's files first, then the surviving subtrees in order. -/
def walkPairs (ts : FSForest) : List (List String × Bool) :=
  walkFilePairs ts ++ walkDirPairs ts

/-- Lookup of a project-root entry by name (`os.path.exists` + access). -/
def findChild : FSForest → String → Option FSTree
  | .nil, _ => none
  | .cons t tl, n => if t.name == n then some t else findChild tl n

/-- `_add_to_zip` for one include entry `item` of `_create_package`:
`source = project_root/item` and `arcname = item`.  A single file is
checked against the full source path (project-root segments included!); a
directory is walked with bare-name checks; a missing entry adds nothing. -/
def itemPairs (rootSegs : List String) (root : FSForest) (item : String) :
    List (List String × Bool) :=
  match findChild root item with
  | none => []
  | some (.file _ rd) =>
    if should_exclude (rootSegs ++ [item]) then [] else [([item], rd)]
  | some (.dir _ cs) => (walkPairs cs).map (fun pr => (item :: pr.1, pr.2))

/-- `ReleaseBuilder._get_existing_files`. -/
def get_existing_files (root : FSForest) (files : List String) : List String :=
  files.filter (fun item => (findChild root item).isSome)

/-- The archive entry paths `_create_package` writes for an include list,
ignoring write failures. -/
def packageEntries (rootSegs : List String) (root : FSForest) (files : List String) :
    List (List String) :=
  (files.flatMap (itemPairs rootSegs root)).map Prod.fst

/-- Entry list of `build_store_package`. -/
def store_entries (rootSegs : List String) (root : FSForest) : List (List String) :=
  packageEntries rootSegs root (get_existing_files root STORE_FILES)

/-- Entry list of `build_github_package`: existing store files followed by
existing documentation files. -/
def github_entries (rootSegs : List String) (root : FSForest) : List (List String) :=
  packageEntries rootSegs root
    (get_existing_files root STORE_FILES ++ get_existing_files root DOCS_FILES)

/-- The output archive name `f'{slug}-v{version}{suffix}.zip'`. -/
def package_filename (d : List (String × Json)) (suffix : String) : String :=
  slugOfName (manifestName d) ++ "-v" ++ (manifestVersion? d).getD "0.0.0" ++ suffix ++ ".zip"

/-- Outcome of one `_create_package` call.  `lockedAbort code`:
`os.remove` raised PermissionError and the handler raised
`SystemExit(code)` before any `ZipFile` was opened.  `midFailure written`:
`zipf.write` raised partway through the loop; the `with` block still
closed the archive, so a closed zip holding exactly `written` remains on
disk while the exception propagates.  `success entries`: every entry was
added and the archive path is returned. -/
inductive BuildResult where
  | lockedAbort (exitCode : Nat) : BuildResult
  | midFailure (written : List (List String)) : BuildResult
  | success (entries : List (List String)) : BuildResult

/-- The `zipf.write` loop: writes entries in order until one raises
(`readable = false`); returns the entries written and whether the loop
completed. -/
def writeAll : List (List String × Bool) → List (List String) × Bool
  | [] => ([], true)
  | (e, ok) :: rest =>
    if ok then
      let r := writeAll rest
      (e :: r.1, r.2)
    else ([], false)

/-- State `_create_package` observes: the project root's path segments and
children, and whether a file already sits at the output path and resists
removal (PermissionError). -/
structure BuildCfg where
  rootSegs : List String
  root : FSForest
  targetExists : Bool
  targetLocked : Bool

/-- `_create_package`: compute the output filename, remove a pre-existing
file (or abort with `SystemExit(1)` when removal raises PermissionError),
then open the zip and add every entry. -/
def create_package_run (d : List (String × Json)) (cfg : BuildCfg)
    (files : List String) (suffix : String) : String × BuildResult :=
  let filename := package_filename d suffix
  if cfg.targetExists && cfg.targetLocked then (filename, BuildResult.lockedAbort 1)
  else
    let r := writeAll (files.flatMap (itemPairs cfg.rootSegs cfg.root))
    (filename, if r.2 then BuildResult.success r.1 else BuildResult.midFailure r.1)

/-- Entries of the closed archive left on disk by the call, `none` when no
archive was created. -/
def writtenArchive : BuildResult → Option (List (List String))
  | BuildResult.lockedAbort _ => none
  | BuildResult.midFailure w => some w
  | BuildResult.success w => some w

/-! ### Slug lemmas -/

theorem goodChar_ne_dash {c : Char} (h : goodChar c = true) : (c == '-') = false := by
  rcases hb : c == '-' with _ | _
  · rfl
  · have : c = '-' := by exact eq_of_beq hb
    subst this
    simp [goodChar] at h

theorem allSlugChars_collapseRuns (l : List Char) :
    ∀ p, allSlugChars (collapseRuns p l) = true := by
  induction l with
  | nil =>
    intro p
    cases p <;> simp [collapseRuns, allSlugChars]
  | cons c rest ih =>
    intro p
    by_cases hg : goodChar c = true
    · have hrest := ih false
      cases p <;>
        simp only [collapseRuns, hg, if_true, if_false] <;>
        simp only [allSlugChars, List.all_append, List.all_cons, List.all_nil,
          Bool.and_eq_true] at hrest ⊢ <;>
        simp [hg, hrest]
    · have hg' : goodChar c = false := by simpa using hg
      simpa [collapseRuns, hg'] using ih true

theorem noDoubleDash_cons_good {c : Char} {t : List Char} (hc : goodChar c = true)
    (ht : noDoubleDash t = true) : noDoubleDash (c :: t) = true := by
  cases t with
  | nil => simp [noDoubleDash]
  | cons d r => simp [noDoubleDash, goodChar_ne_dash hc, ht]

theorem noDoubleDash_collapseRuns (l : List Char) :
    ∀ p, noDoubleDash (collapseRuns p l) = true := by
  induction l with
  | nil =>
    intro p
    cases p <;> simp [collapseRuns, noDoubleDash]
  | cons c rest ih =>
    intro p
    by_cases hg : goodChar c = true
    · cases p
      · simpa [collapseRuns, hg] using noDoubleDash_cons_good hg (ih false)
      · simp only [collapseRuns, hg, if_true]
        have h1 : noDoubleDash (c :: collapseRuns false rest) = true :=
          noDoubleDash_cons_good hg (ih false)
        cases hrest : collapseRuns false rest with
        | nil => simp [noDoubleDash, goodChar_ne_dash hg]
        | cons e r =>
          rw [hrest] at h1
          simp [noDoubleDash, goodChar_ne_dash hg] at h1 ⊢
          exact h1
    · have hg' : goodChar c = false := by simpa using hg
      simpa [collapseRuns, hg'] using ih true

theorem dropTrailingDashes_prefix_self (l : List Char) : dropTrailingDashes l <+: l := by
  induction l with
  | nil => exact List.prefix_refl []
  | cons c rest ih =>
    cases hr : dropTrailingDashes rest with
    | nil =>
      by_cases hc : (c == '-') = true
      · simp [dropTrailingDashes, hr, hc]
      · simp only [dropTrailingDashes, hr]
        simp only [Bool.not_eq_true] at hc
        simp [hc]
    | cons x xs =>
      simp only [dropTrailingDashes, hr]
      rw [hr] at ih
      exact List.cons_prefix_cons.mpr ⟨rfl, ih⟩

theorem allSlugChars_prefix_mono {l t : List Char} (h : l <+: t) (ht : allSlugChars t = true) :
    allSlugChars l = true := by
  obtain ⟨r, rfl⟩ := h
  simp only [allSlugChars, List.all_append, Bool.and_eq_true] at ht
  exact ht.1

theorem noDoubleDash_append_left : ∀ l t : List Char,
    noDoubleDash (l ++ t) = true → noDoubleDash l = true := by
  intro l
  induction l with
  | nil => intro t _; rfl
  | cons c rest ih =>
    intro t h
    cases rest with
    | nil => rfl
    | cons d r =>
      simp only [List.cons_append, noDoubleDash, Bool.and_eq_true] at h ⊢
      exact ⟨h.1, by simpa using ih t (by simpa using h.2)⟩

theorem noDoubleDash_prefix_mono {l t : List Char} (h : l <+: t) (ht : noDoubleDash t = true) :
    noDoubleDash l = true := by
  obtain ⟨r, rfl⟩ := h
  exact noDoubleDash_append_left l r ht

theorem noDoubleDash_append_right : ∀ l t : List Char,
    noDoubleDash (l ++ t) = true → noDoubleDash t = true := by
  intro l
  induction l with
  | nil => intro t h; exact h
  | cons c rest ih =>
    intro t h
    apply ih
    cases hr : rest ++ t with
    | nil => rfl
    | cons y ys =>
      rw [List.cons_append, hr] at h
      simp only [noDoubleDash, Bool.and_eq_true] at h
      exact h.2

theorem lastNotDash_dropTrailingDashes (l : List Char) :
    lastNotDash (dropTrailingDashes l) = true := by
  induction l with
  | nil => rfl
  | cons c rest ih =>
    cases hr : dropTrailingDashes rest with
    | nil =>
      by_cases hc : (c == '-') = true
      · simp [dropTrailingDashes, hr, hc, lastNotDash]
      · simp only [Bool.not_eq_true] at hc
        simp [dropTrailingDashes, hr, hc, lastNotDash]
    | cons x xs =>
      simp only [dropTrailingDashes, hr]
      rw [hr] at ih
      simpa [lastNotDash, List.getLast?_cons_cons] using ih

theorem dropTrailingDashes_eq_self {l : List Char} (h : lastNotDash l = true) :
    dropTrailingDashes l = l := by
  induction l with
  | nil => rfl
  | cons c rest ih =>
    cases rest with
    | nil =>
      by_cases hc : (c == '-') = true
      · exfalso
        have hceq : c = '-' := eq_of_beq hc
        subst hceq
        simp [lastNotDash, List.getLast?_singleton] at h
      · simp only [Bool.not_eq_true] at hc
        simp [dropTrailingDashes, hc]
    | cons d r =>
      have h' : lastNotDash (d :: r) = true := by
        simpa [lastNotDash, List.getLast?_cons_cons] using h
      have hd := ih h'
      have e : dropTrailingDashes (c :: d :: r) =
          (match dropTrailingDashes (d :: r) with
           | [] => if c == '-' then [] else [c]
           | r' => c :: r') := rfl
      rw [e, hd]

theorem headNotDash_dropWhile (l : List Char) :
    headNotDash (l.dropWhile (fun c => c == '-')) = true := by
  induction l with
  | nil => rfl
  | cons c rest ih =>
    by_cases hc : (c == '-') = true
    · simpa [List.dropWhile_cons, hc] using ih
    · simp only [Bool.not_eq_true] at hc
      simp [List.dropWhile_cons, hc, headNotDash]

theorem dropWhile_dash_eq_self {l : List Char} (h : headNotDash l = true) :
    l.dropWhile (fun c => c == '-') = l := by
  cases l with
  | nil => rfl
  | cons c rest =>
    simp only [headNotDash, Bool.not_eq_true'] at h
    simp [List.dropWhile_cons, h]

theorem headNotDash_dropTrailingDashes {l : List Char} (h : headNotDash l = true) :
    headNotDash (dropTrailingDashes l) = true := by
  cases l with
  | nil => rfl
  | cons c rest =>
    cases hr : dropTrailingDashes rest with
    | nil =>
      by_cases hc : (c == '-') = true
      · simp [dropTrailingDashes, hr, hc, headNotDash]
      · simp only [Bool.not_eq_true] at hc
        simp [dropTrailingDashes, hr, hc, headNotDash]
    | cons x xs =>
      simp only [dropTrailingDashes, hr]
      simpa [headNotDash] using h

theorem lowerChar_eq_self {c : Char} (h : (goodChar c || c == '-') = true) :
    lowerChar c = c := by
  have hval : (97 ≤ c.toNat ∧ c.toNat ≤ 122) ∨ (48 ≤ c.toNat ∧ c.toNat ≤ 57) ∨ c.toNat = 45 := by
    rcases Bool.or_eq_true_iff.mp h with hg | hd
    · simp only [goodChar, Bool.or_eq_true_iff, Bool.and_eq_true, decide_eq_true_eq] at hg
      tauto
    · have : c = '-' := eq_of_beq hd
      subst this
      right; right; rfl
  have hcond : (65 ≤ c.toNat && c.toNat ≤ 90) = false := by
    simp only [Bool.and_eq_false_iff, decide_eq_false_iff_not]
    omega
  simp [lowerChar, hcond]

theorem map_lowerChar_eq_self {l : List Char} (h : allSlugChars l = true) :
    l.map lowerChar = l := by
  induction l with
  | nil => rfl
  | cons c rest ih =>
    simp only [allSlugChars, List.all_cons, Bool.and_eq_true] at h
    simp only [List.map_cons, lowerChar_eq_self h.1, ih h.2]

theorem collapseRuns_fixed : ∀ n l, l.length ≤ n → allSlugChars l = true →
    noDoubleDash l = true → lastNotDash l = true → headNotDash l = true →
    collapseRuns false l = l ∧ collapseRuns true l = '-' :: l := by
  intro n
  induction n with
  | zero =>
    intro l hlen _ _ _ _
    have : l = [] := List.length_eq_zero.mp (Nat.le_zero.mp hlen)
    subst this
    exact ⟨rfl, rfl⟩
  | succ n ih =>
    intro l hlen hall hdd hlast hhead
    cases l with
    | nil => exact ⟨rfl, rfl⟩
    | cons c rest =>
      have hcnd : (c == '-') = false := by simpa [headNotDash] using hhead
      have hcg : goodChar c = true := by
        simp only [allSlugChars, List.all_cons, Bool.and_eq_true] at hall
        rcases Bool.or_eq_true_iff.mp hall.1 with hg | hd
        · exact hg
        · rw [hd] at hcnd; cases hcnd
      have hall' : allSlugChars rest = true := by
        simp only [allSlugChars, List.all_cons, Bool.and_eq_true] at hall
        exact hall.2
      have hrest : collapseRuns false rest = rest := by
        cases rest with
        | nil => rfl
        | cons d rest' =>
          have hdd' : noDoubleDash (d :: rest') = true := by
            simp only [noDoubleDash, Bool.and_eq_true] at hdd
            exact hdd.2
          have hlast' : lastNotDash (d :: rest') = true := by
            simpa [lastNotDash, List.getLast?_cons_cons] using hlast
          by_cases hdn : (d == '-') = true
          · -- the tail starts with a hyphen: use the pending-run branch
            have hdeq : d = '-' := eq_of_beq hdn
            subst hdeq
            have hne : rest' ≠ [] := by
              intro hcon
              subst hcon
              simp [lastNotDash, List.getLast?_cons_cons, List.getLast?_singleton] at hlast'
            have hhead'' : headNotDash rest' = true := by
              cases rest' with
              | nil => rfl
              | cons e r2 =>
                simp only [noDoubleDash, Bool.and_eq_true] at hdd'
                have := hdd'.1
                simp only [Bool.not_eq_true', Bool.and_eq_false_iff] at this
                rcases this with h1 | h2
                · simp at h1
                · simp [headNotDash, h2]
            have hall'' : allSlugChars rest' = true := by
              simp only [allSlugChars, List.all_cons, Bool.and_eq_true] at hall'
              exact hall'.2
            have hdd'' : noDoubleDash rest' = true := by
              cases rest' with
              | nil => rfl
              | cons e r2 =>
                simp only [noDoubleDash, Bool.and_eq_true] at hdd'
                exact hdd'.2
            have hlast'' : lastNotDash rest' = true := by
              cases rest' with
              | nil => rfl
              | cons e r2 =>
                simpa [lastNotDash, List.getLast?_cons_cons] using hlast'
            have hlen'' : rest'.length ≤ n := by
              simp only [List.length_cons] at hlen
              omega
            have hgdash : goodChar '-' = false := by decide
            have := (ih rest' hlen'' hall'' hdd'' hlast'' hhead'').2
            simp only [collapseRuns, hgdash, if_false, Bool.false_eq_true]
            exact this
          · have hhead' : headNotDash (d :: rest') = true := by
              simp only [Bool.not_eq_true] at hdn
              simp [headNotDash, hdn]
            have hlen' : (d :: rest').length ≤ n := by
              simp only [List.length_cons] at hlen ⊢
              omega
            exact (ih (d :: rest') hlen' hall' hdd' hlast' hhead').1
      constructor
      · simp [collapseRuns, hcg, hrest]
      · simp [collapseRuns, hcg, hrest]

theorem stripDashes_canonical (l : List Char) (hall : allSlugChars l = true)
    (hdd : noDoubleDash l = true) :
    allSlugChars (stripDashes l) = true ∧ noDoubleDash (stripDashes l) = true ∧
      headNotDash (stripDashes l) = true ∧ lastNotDash (stripDashes l) = true := by
  have hdw : l.dropWhile (fun c => c == '-') <:+ l := List.dropWhile_suffix _
  have hall1 : allSlugChars (l.dropWhile (fun c => c == '-')) = true := by
    obtain ⟨r, hr⟩ := hdw
    have : allSlugChars (r ++ l.dropWhile (fun c => c == '-')) = true := by rw [hr]; exact hall
    simp only [allSlugChars, List.all_append, Bool.and_eq_true] at this
    exact this.2
  have hdd1 : noDoubleDash (l.dropWhile (fun c => c == '-')) = true := by
    obtain ⟨r, hr⟩ := hdw
    refine noDoubleDash_append_right r _ ?_
    rw [hr]; exact hdd
  have hpre : stripDashes l <+: l.dropWhile (fun c => c == '-') :=
    dropTrailingDashes_prefix_self _
  refine ⟨allSlugChars_prefix_mono hpre hall1, noDoubleDash_prefix_mono hpre hdd1, ?_, ?_⟩
  · exact headNotDash_dropTrailingDashes (headNotDash_dropWhile l)
  · exact lastNotDash_dropTrailingDashes _

theorem slugCanonical_slugOfName (s : String) : slugCanonical (slugOfName s) = true := by
  have h1 := allSlugChars_collapseRuns (s.data.map lowerChar) false
  have h2 := noDoubleDash_collapseRuns (s.data.map lowerChar) false
  obtain ⟨a, b, c, d⟩ := stripDashes_canonical _ h1 h2
  simp only [slugCanonical, slugOfName, Bool.and_eq_true]
  exact ⟨⟨⟨a, b⟩, c⟩, d⟩

theorem slugOfName_fixed {t : String} (h : slugCanonical t = true) : slugOfName t = t := by
  simp only [slugCanonical, Bool.and_eq_true] at h
  obtain ⟨⟨⟨hall, hdd⟩, hhead⟩, hlast⟩ := h
  have hmap : t.data.map lowerChar = t.data := map_lowerChar_eq_self hall
  have hcoll : collapseRuns false t.data = t.data :=
    (collapseRuns_fixed t.data.length t.data (Nat.le_refl _) hall hdd hlast hhead).1
  have hdw : t.data.dropWhile (fun c => c == '-') = t.data := dropWhile_dash_eq_self hhead
  have hdt : dropTrailingDashes t.data = t.data := dropTrailingDashes_eq_self hlast
  have : slugOfName t = String.mk t.data := by
    simp only [slugOfName, hmap, hcoll, stripDashes, hdw, hdt]
  rw [this]

/-- C3: the slug transformation is idempotent, and its output contains
only lowercase alphanumerics and single hyphens, with no leading hyphen,
no trailing hyphen, and no two consecutive hyphens. -/
theorem slug_idempotent_and_canonical (s : String) :
    slugOfName (slugOfName s) = slugOfName s ∧ slugCanonical (slugOfName s) = true :=
  ⟨slugOfName_fixed (slugCanonical_slugOfName s), slugCanonical_slugOfName s⟩

/-! ### Printer / parser roundtrip lemmas -/

theorem digitCharOf_isPyDigit : ∀ k, k < 10 → isPyDigit (digitCharOf k) = true := by decide

theorem digitVal_digitCharOf : ∀ k, k < 10 → digitVal (digitCharOf k) = k := by decide

theorem natPrintAux_spec : ∀ fuel n acc, n < fuel →
    ∃ ds, natPrintAux fuel n acc = ds ++ acc ∧ ds ≠ [] ∧
      (∀ c ∈ ds, isPyDigit c = true) ∧ charsVal ds = n := by
  intro fuel
  induction fuel with
  | zero => intro n acc h; omega
  | succ fuel ih =>
    intro n acc h
    by_cases hn : n < 10
    · refine ⟨[digitCharOf n], by simp [natPrintAux, hn], by simp, ?_, ?_⟩
      · intro c hc
        simp only [List.mem_singleton] at hc
        subst hc
        exact digitCharOf_isPyDigit n hn
      · simp [charsVal, digitVal_digitCharOf n hn]
    · have hdiv : n / 10 < fuel := by
        have h10 : n / 10 < n := Nat.div_lt_self (by omega) (by omega)
        omega
      obtain ⟨ds, heq, hne, hdig, hval⟩ := ih (n / 10) (digitCharOf (n % 10) :: acc) hdiv
      refine ⟨ds ++ [digitCharOf (n % 10)], ?_, by simp, ?_, ?_⟩
      · simp only [natPrintAux, hn, if_false, List.append_assoc, List.singleton_append]
        simpa using heq
      · intro c hc
        rcases List.mem_append.mp hc with hcl | hcr
        · exact hdig c hcl
        · simp only [List.mem_singleton] at hcr
          subst hcr
          exact digitCharOf_isPyDigit _ (Nat.mod_lt _ (by omega))
      · simp only [charsVal, List.foldl_append, List.foldl_cons, List.foldl_nil]
        have : digitVal (digitCharOf (n % 10)) = n % 10 :=
          digitVal_digitCharOf _ (Nat.mod_lt _ (by omega))
        simp only [charsVal] at hval
        rw [hval, this]
        omega

theorem natPrint_spec (n : Nat) : natPrint n ≠ [] ∧
    (∀ c ∈ natPrint n, isPyDigit c = true) ∧ charsVal (natPrint n) = n := by
  obtain ⟨ds, heq, hne, hdig, hval⟩ := natPrintAux_spec (n + 1) n [] (Nat.lt_succ_self n)
  simp only [natPrint, heq, List.append_nil]
  exact ⟨hne, hdig, hval⟩

theorem pyDigitsOk_of_digits : ∀ l : List Char, l ≠ [] →
    (∀ c ∈ l, isPyDigit c = true) → pyDigitsOk l = true := by
  intro l
  induction l with
  | nil => intro h; exact absurd rfl h
  | cons c rest ih =>
    intro _ hdig
    cases rest with
    | nil => simpa [pyDigitsOk] using hdig c (by simp)
    | cons d r =>
      have hd : isPyDigit d = true := hdig d (by simp)
      have hdu : (d == '_') = false := by
        cases hb : d == '_' with
        | false => rfl
        | true =>
          have hde : d = '_' := eq_of_beq hb
          subst hde
          exact absurd hd (by decide)
      simp only [pyDigitsOk, hdu, cond_false, Bool.and_eq_true]
      exact ⟨hdig c (by simp), ih (by simp) (fun x hx => hdig x (List.mem_cons_of_mem c hx))⟩

theorem pyNat?_natPrint (n : Nat) : pyNat? (natPrint n) = some n := by
  obtain ⟨hne, hdig, hval⟩ := natPrint_spec n
  have hok := pyDigitsOk_of_digits _ hne hdig
  have hfil : (natPrint n).filter isPyDigit = natPrint n := List.filter_eq_self.mpr hdig
  simp [pyNat?, hok, hfil, hval]

theorem isPySpace_of_isPyDigit {c : Char} (h : isPyDigit c = true) : isPySpace c = false := by
  simp only [isPyDigit, Bool.and_eq_true, decide_eq_true_eq] at h
  simp only [isPySpace, Bool.or_eq_false_iff, beq_eq_false_iff_ne]
  refine ⟨⟨⟨⟨⟨?_, ?_⟩, ?_⟩, ?_⟩, ?_⟩, ?_⟩ <;>
    (intro hc; subst hc; revert h; decide)

theorem dropWhile_eq_self_of_false {p : Char → Bool} {l : List Char}
    (h : ∀ c ∈ l, p c = false) : l.dropWhile p = l := by
  cases l with
  | nil => rfl
  | cons c rest => simp [List.dropWhile_cons, h c (by simp)]

theorem strip_spaces_eq_self {l : List Char} (h : ∀ c ∈ l, isPySpace c = false) :
    ((l.dropWhile isPySpace).reverse.dropWhile isPySpace).reverse = l := by
  rw [dropWhile_eq_self_of_false h]
  rw [dropWhile_eq_self_of_false (fun c hc => h c (List.mem_reverse.mp hc))]
  exact l.reverse_reverse

theorem pyInt?_digits {l : List Char} (hne : l ≠ []) (hdig : ∀ c ∈ l, isPyDigit c = true) :
    pyInt? l = (pyNat? l).map Int.ofNat := by
  have hstrip := strip_spaces_eq_self (fun c hc => isPySpace_of_isPyDigit (hdig c hc))
  cases l with
  | nil => exact absurd rfl hne
  | cons c rest =>
    have hc : isPyDigit c = true := hdig c (by simp)
    have hplus : c ≠ '+' := by intro h; subst h; revert hc; decide
    have hminus : c ≠ '-' := by intro h; subst h; revert hc; decide
    simp only [pyInt?, hstrip]
    split
    · next heq =>
      injection heq with h1 _
      exact absurd h1 hplus
    · next heq =>
      injection heq with h1 _
      exact absurd h1 hminus
    · rfl

theorem pyInt?_dash_digits {l : List Char} (hne : l ≠ [])
    (hdig : ∀ c ∈ l, isPyDigit c = true) :
    pyInt? ('-' :: l) = (pyNat? l).map (fun n => -(Int.ofNat n)) := by
  have hall : ∀ c ∈ '-' :: l, isPySpace c = false := by
    intro c hc
    rcases List.mem_cons.mp hc with rfl | hm
    · decide
    · exact isPySpace_of_isPyDigit (hdig c hm)
  have hstrip := strip_spaces_eq_self hall
  cases l with
  | nil => exact absurd rfl hne
  | cons c rest =>
    simp only [pyInt?, hstrip]

theorem pyInt?_intPrint (i : Int) : pyInt? (intPrint i) = some i := by
  obtain ⟨hne, hdig, _⟩ := natPrint_spec i.natAbs
  by_cases hi : i < 0
  · have : intPrint i = '-' :: natPrint i.natAbs := by simp [intPrint, hi]
    rw [this, pyInt?_dash_digits hne hdig, pyNat?_natPrint, Option.map_some']
    congr 1
    simp only [Int.ofNat_eq_natCast]
    omega
  · have : intPrint i = natPrint i.natAbs := by simp [intPrint, hi]
    rw [this, pyInt?_digits hne hdig, pyNat?_natPrint, Option.map_some']
    congr 1
    simp only [Int.ofNat_eq_natCast]
    omega

/-! ### Split / join lemmas -/

theorem splitDotsChars_no_dot {a : List Char} (h : ∀ c ∈ a, (c == '.') = false) :
    splitDotsChars a = [a] := by
  induction a with
  | nil => rfl
  | cons c rest ih =>
    have hc : (c == '.') = false := h c (by simp)
    have hrest := ih (fun x hx => h x (List.mem_cons_of_mem c hx))
    simp [splitDotsChars, hc, hrest]

theorem splitDotsChars_append_dot {a : List Char} (b : List Char)
    (h : ∀ c ∈ a, (c == '.') = false) :
    splitDotsChars (a ++ '.' :: b) = a :: splitDotsChars b := by
  induction a with
  | nil => simp [splitDotsChars]
  | cons c rest ih =>
    have hc : (c == '.') = false := h c (by simp)
    have hrest := ih (fun x hx => h x (List.mem_cons_of_mem c hx))
    simp [splitDotsChars, hc, hrest]

theorem intPrint_no_dot (i : Int) : ∀ c ∈ intPrint i, (c == '.') = false := by
  intro c hc
  obtain ⟨_, hdig, _⟩ := natPrint_spec i.natAbs
  have : c = '-' ∨ isPyDigit c = true := by
    by_cases hi : i < 0
    · simp only [intPrint, hi, if_true] at hc
      rcases List.mem_cons.mp hc with rfl | hm
      · exact Or.inl rfl
      · exact Or.inr (hdig c hm)
    · simp only [intPrint, hi, if_false] at hc
      exact Or.inr (hdig c hc)
  rcases this with rfl | hd
  · decide
  · simp only [isPyDigit, Bool.and_eq_true, decide_eq_true_eq] at hd
    simp only [beq_eq_false_iff_ne]
    intro hceq
    subst hceq
    revert hd
    decide

theorem splitDotsChars_verString (x y z : Int) :
    splitDotsChars (verString x y z).data = [intPrint x, intPrint y, intPrint z] := by
  have h1 : (verString x y z).data = intPrint x ++ '.' :: (intPrint y ++ '.' :: intPrint z) := by
    simp [verString]
  rw [h1, splitDotsChars_append_dot _ (intPrint_no_dot x),
    splitDotsChars_append_dot _ (intPrint_no_dot y),
    splitDotsChars_no_dot (intPrint_no_dot z)]

theorem parsedComponents_verString (x y z : Int) :
    parsedComponents (verString x y z) = some (x, y, z) := by
  have hsplit := splitDotsChars_verString x y z
  have hpad : padTo3 [intPrint x, intPrint y, intPrint z] =
      [intPrint x, intPrint y, intPrint z] := by
    simp [padTo3]
  simp [parsedComponents, hsplit, hpad, pyInt?_intPrint]

/-! ## Claim theorems: version bumping -/

/-- C1: `bump_version` splits on `'.'`, pads with `'0'` on the right to at
least 3 components, applies the major/minor/patch rule, reassembles
exactly 3 dot-separated components regardless of the original count, and
returns the `(pre-bump, post-bump)` pair.  The quoted examples hold, and
in general a successful bump returns the unchanged input as first
component and a 3-component result obeying the increment rule. -/
theorem bump_version_c1 :
    (bump_version_str "1.2" "patch" = some ("1.2", "1.2.1") ∧
     bump_version_str "1.2.3" "major" = some ("1.2.3", "2.0.0") ∧
     bump_version_str "1.2.3" "minor" = some ("1.2.3", "1.3.0") ∧
     bump_version_str "1.2.3" "patch" = some ("1.2.3", "1.2.4") ∧
     bump_version_str "7.8.9.10" "patch" = some ("7.8.9.10", "7.8.10")) ∧
    (∀ v bt o n, bump_version_str v bt = some (o, n) →
       o = v ∧ (splitDotsChars n.data).length = 3) ∧
    (∀ v x y z, parsedComponents v = some (x, y, z) →
       bump_version_str v "major" = some (v, verString (x + 1) 0 0) ∧
       bump_version_str v "minor" = some (v, verString x (y + 1) 0) ∧
       bump_version_str v "patch" = some (v, verString x y (z + 1))) := by
  refine ⟨by decide, ?_, ?_⟩
  · intro v bt o n h
    cases hp : parsedComponents v with
    | none => simp [bump_version_str, hp] at h
    | some t =>
      obtain ⟨x, y, z⟩ := t
      simp only [bump_version_str, hp, Option.some.injEq, Prod.mk.injEq] at h
      obtain ⟨ho, hn⟩ := h
      subst ho
      refine ⟨rfl, ?_⟩
      rw [← hn, splitDotsChars_verString]
      rfl
  · intro v x y z hp
    refine ⟨?_, ?_, ?_⟩ <;> simp [bump_version_str, hp, bumpTriple]

/-- Closed witness for `bump_version_c1`, discharging its hypotheses at
concrete inputs. -/
theorem bump_version_c1_witness :
    ("5.6.7" = "5.6.7" ∧ (splitDotsChars "5.6.8".data).length = 3) ∧
    bump_version_str "5.6" "minor" = some ("5.6", verString 5 (6 + 1) 0) :=
  ⟨bump_version_c1.2.1 "5.6.7" "patch" "5.6.7" "5.6.8" (by decide),
   (bump_version_c1.2.2 "5.6" 5 6 0 (by decide)).2.1⟩

/-- C5 counterexample: `"1.2.3.abc"` contains the non-numeric component
`"abc"`, yet `bump_version` does not fail: only the first three components
are ever parsed, so the bump succeeds and persists `"1.2.4"`, a version
derived from that input. -/
theorem bump_nonnumeric_not_rejected :
    "abc".data ∈ splitDotsChars "1.2.3.abc".data ∧
    pyInt? "abc".data = none ∧
    bump_version_str "1.2.3.abc" "patch" = some ("1.2.3.abc", "1.2.4") ∧
    bump_version [("version", Json.str "1.2.3.abc")] "patch" =
      some ([("version", Json.str "1.2.4")], "1.2.3.abc", "1.2.4") :=
  ⟨by decide, by decide, by decide, by rfl⟩

/-- C5 amended: a component that `int()` cannot parse causes the bump to
fail exactly when it lies among the first three padded components; the
failure yields no result (so nothing is assigned or persisted).
Components past the third are ignored. -/
theorem bump_version_nonnumeric_first3 (v bt : String) (a b c : List Char)
    (rest : List (List Char))
    (hsplit : padTo3 (splitDotsChars v.data) = a :: b :: c :: rest)
    (hbad : pyInt? a = none ∨ pyInt? b = none ∨ pyInt? c = none) :
    bump_version_str v bt = none ∧
    ∀ d : List (String × Json), manifestVersion? d = some v →
      bump_version d bt = none := by
  have hparse : parsedComponents v = none := by
    simp only [parsedComponents, hsplit]
    rcases hbad with h | h | h <;> rw [h] <;> cases pyInt? a <;> cases pyInt? b <;>
      cases pyInt? c <;> rfl
  refine ⟨?_, ?_⟩
  · simp [bump_version_str, hparse]
  · intro d hd
    simp [bump_version, hd, bump_version_str, hparse]

/-- Closed witness for `bump_version_nonnumeric_first3` at the version
`"1.x.3"` whose second component is non-numeric. -/
theorem bump_version_nonnumeric_first3_witness :
    bump_version_str "1.x.3" "patch" = none ∧
    bump_version [("version", Json.str "1.x.3")] "patch" = none := by
  have h := bump_version_nonnumeric_first3 "1.x.3" "patch" "1".data "x".data "3".data []
    (by decide) (Or.inr (Or.inl (by decide)))
  exact ⟨h.1, h.2 [("version", Json.str "1.x.3")] rfl⟩

/-- C10: every `bump_type` other than `'major'` and `'minor'` falls into
the `else` branch and behaves exactly as a patch bump, at both the
version-string and the manifest level. -/
theorem bump_unknown_type_is_patch (v bt : String) (d : List (String × Json))
    (h1 : bt ≠ "major") (h2 : bt ≠ "minor") :
    bump_version_str v bt = bump_version_str v "patch" ∧
    bump_version d bt = bump_version d "patch" := by
  have hstr : ∀ w : String, bump_version_str w bt = bump_version_str w "patch" := by
    intro w
    cases hp : parsedComponents w with
    | none => simp [bump_version_str, hp]
    | some t =>
      obtain ⟨x, y, z⟩ := t
      simp [bump_version_str, hp, bumpTriple, h1, h2]
  refine ⟨hstr v, ?_⟩
  cases hv : manifestVersion? d with
  | none => simp [bump_version, hv]
  | some old => simp [bump_version, hv, hstr old]

/-- Closed witness for `bump_unknown_type_is_patch` at the unknown kind
`"banana"`. -/
theorem bump_unknown_type_is_patch_witness :
    bump_version_str "1.2.3" "banana" = bump_version_str "1.2.3" "patch" ∧
    bump_version [("version", Json.str "1.2.3")] "banana" =
      bump_version [("version", Json.str "1.2.3")] "patch" :=
  bump_unknown_type_is_patch "1.2.3" "banana" [("version", Json.str "1.2.3")]
    (by decide) (by decide)

/-! ## Claim theorems: manifest frame condition -/

theorem dictGet_map_set {k k' : String} (v : Json) (h : k' ≠ k) :
    ∀ d : List (String × Json),
      dictGet (d.map (fun p => cond (p.1 == k) (k, v) p)) k' = dictGet d k' := by
  intro d
  have hkk : (k == k') = false := beq_eq_false_iff_ne.mpr (fun he => h he.symm)
  induction d with
  | nil => rfl
  | cons p rest ih =>
    cases hp : p.1 == k with
    | true =>
      have hpk : p.1 = k := eq_of_beq hp
      have hpk' : (p.1 == k') = false := by rw [hpk]; exact hkk
      simp only [List.map_cons, hp, cond_true, dictGet, hkk, cond_false, hpk']
      exact ih
    | false =>
      simp only [List.map_cons, hp, cond_false, dictGet]
      cases hq : p.1 == k' with
      | true => rfl
      | false => simpa only [cond_false] using ih

theorem dictGet_append_single_ne (k k' : String) (v : Json) (h : k' ≠ k) :
    ∀ d : List (String × Json), dictGet (d ++ [(k, v)]) k' = dictGet d k' := by
  intro d
  have hkk : (k == k') = false := beq_eq_false_iff_ne.mpr (fun he => h he.symm)
  induction d with
  | nil => simp [dictGet, hkk]
  | cons p rest ih =>
    simp only [List.cons_append, dictGet]
    cases hq : p.1 == k' with
    | true => rfl
    | false => simpa only [cond_false] using ih

theorem dictGet_dictSet_ne (d : List (String × Json)) (k k' : String) (v : Json)
    (h : k' ≠ k) : dictGet (dictSet d k v) k' = dictGet d k' := by
  cases hany : d.any (fun p => p.1 == k) with
  | true =>
    simp only [dictSet, hany, cond_true]
    exact dictGet_map_set v h d
  | false =>
    simp only [dictSet, hany, cond_false]
    exact dictGet_append_single_ne k k' v h d

theorem dictGet_append_self {d : List (String × Json)} {k : String} (v : Json)
    (hall : ∀ p ∈ d, (p.1 == k) = false) :
    dictGet (d ++ [(k, v)]) k = some v := by
  induction d with
  | nil => simp [dictGet]
  | cons p rest ih =>
    have hp := hall p (by simp)
    simp only [List.cons_append, dictGet, hp, cond_false]
    exact ih (fun q hq => hall q (List.mem_cons_of_mem p hq))

theorem dictGet_dictSet_self (d : List (String × Json)) (k : String) (v : Json) :
    dictGet (dictSet d k v) k = some v := by
  cases hany : d.any (fun p => p.1 == k) with
  | true =>
    simp only [dictSet, hany, cond_true]
    induction d with
    | nil => simp at hany
    | cons p rest ih =>
      cases hp : p.1 == k with
      | true => simp [dictGet, hp]
      | false =>
        have hrest : rest.any (fun p => p.1 == k) = true := by
          simp only [List.any_cons, hp, Bool.false_or] at hany
          exact hany
        simpa only [List.map_cons, hp, cond_false, dictGet] using ih hrest
  | false =>
    simp only [dictSet, hany, cond_false]
    have hall : ∀ p ∈ d, (p.1 == k) = false := by
      intro p hp
      have := List.any_eq_false.mp hany p hp
      simpa using this
    exact dictGet_append_self v hall

theorem map_fst_map_set (k : String) (v : Json) :
    ∀ d : List (String × Json),
      (d.map (fun p => cond (p.1 == k) (k, v) p)).map Prod.fst = d.map Prod.fst := by
  intro d
  induction d with
  | nil => rfl
  | cons p rest ih =>
    cases hp : p.1 == k with
    | true =>
      have hpk : p.1 = k := eq_of_beq hp
      simp only [List.map_cons, hp, hpk, beq_self_eq_true, cond_true, ih]
    | false => simp only [List.map_cons, hp, cond_false, ih]

theorem keys_dictSet (d : List (String × Json)) (k : String) (v : Json) :
    (dictSet d k v).map Prod.fst =
      cond (d.any (fun p => p.1 == k)) (d.map Prod.fst) (d.map Prod.fst ++ [k]) := by
  cases hany : d.any (fun p => p.1 == k) with
  | true => simp only [dictSet, hany, cond_true, map_fst_map_set]
  | false => simp only [dictSet, hany, cond_false, List.map_append, List.map_cons, List.map_nil]

/-- C7: a successful `bump_version` persists a manifest that differs from
the loaded one only in the `version` field: every other key keeps its
value (unknown fields included), the new version is stored, and the
original key order is preserved (with `version` appended at the end only
when it was absent). -/
theorem bump_version_frame (d : List (String × Json)) (bt : String)
    (d' : List (String × Json)) (o n : String)
    (h : bump_version d bt = some (d', o, n)) :
    (∀ k, k ≠ "version" → dictGet d' k = dictGet d k) ∧
    dictGet d' "version" = some (Json.str n) ∧
    d'.map Prod.fst =
      cond (d.any (fun p => p.1 == "version")) (d.map Prod.fst)
        (d.map Prod.fst ++ ["version"]) := by
  have hd' : d' = dictSet d "version" (Json.str n) := by
    cases hv : manifestVersion? d with
    | none => simp [bump_version, hv] at h
    | some old =>
      cases hb : bump_version_str old bt with
      | none => simp [bump_version, hv, hb] at h
      | some pr =>
        obtain ⟨o', n'⟩ := pr
        simp only [bump_version, hv, hb, Option.some.injEq, Prod.mk.injEq] at h
        obtain ⟨h1, _, h3⟩ := h
        rw [← h1, ← h3]
  subst hd'
  exact ⟨fun k hk => dictGet_dictSet_ne d "version" k (Json.str n) hk,
    dictGet_dictSet_self d "version" (Json.str n),
    keys_dictSet d "version" (Json.str n)⟩

/-- Closed witness for `bump_version_frame`: a bump on a manifest with
name, version and an unknown field, hypothesis discharged at the concrete
input. -/
theorem bump_version_frame_witness :
    (∀ k, k ≠ "version" →
      dictGet [("name", Json.str "X"), ("version", Json.str "1.2.4"), ("k", Json.num 5)] k =
      dictGet [("name", Json.str "X"), ("version", Json.str "1.2.3"), ("k", Json.num 5)] k) ∧
    dictGet [("name", Json.str "X"), ("version", Json.str "1.2.4"), ("k", Json.num 5)]
      "version" = some (Json.str "1.2.4") ∧
    ([("name", Json.str "X"), ("version", Json.str "1.2.4"),
      ("k", Json.num 5)].map Prod.fst) =
      cond ([("name", Json.str "X"), ("version", Json.str "1.2.3"),
        ("k", Json.num 5)].any (fun p => p.1 == "version"))
        ([("name", Json.str "X"), ("version", Json.str "1.2.3"),
          ("k", Json.num 5)].map Prod.fst)
        ([("name", Json.str "X"), ("version", Json.str "1.2.3"),
          ("k", Json.num 5)].map Prod.fst ++ ["version"]) :=
  bump_version_frame
    [("name", Json.str "X"), ("version", Json.str "1.2.3"), ("k", Json.num 5)]
    "patch"
    [("name", Json.str "X"), ("version", Json.str "1.2.4"), ("k", Json.num 5)]
    "1.2.3" "1.2.4" rfl

/-! ## Claim theorems: exclusion rules and package contents -/

theorem walkFilePairs_clean : ∀ ts : FSForest, ∀ pr ∈ walkFilePairs ts, ∀ seg ∈ pr.1,
    shouldExcludeName seg = false := by
  intro ts
  induction ts using walkFilePairs.induct with
  | case1 => simp [walkFilePairs]
  | case2 n rd tl ih =>
    intro pr hpr seg hseg
    simp only [walkFilePairs] at hpr
    rcases List.mem_append.mp hpr with hl | hr
    · split at hl
      · simp at hl
      · next hbad =>
        simp only [List.mem_singleton] at hl
        subst hl
        simp only [List.mem_singleton] at hseg
        subst hseg
        exact Bool.not_eq_true _ |>.mp hbad
    · exact ih pr hr seg hseg
  | case3 n cs tl ih =>
    intro pr hpr seg hseg
    simp only [walkFilePairs] at hpr
    exact ih pr hpr seg hseg

theorem walkDirPairs_clean : ∀ ts : FSForest, ∀ pr ∈ walkDirPairs ts, ∀ seg ∈ pr.1,
    shouldExcludeName seg = false := by
  intro ts
  induction ts using walkDirPairs.induct with
  | case1 => simp [walkDirPairs]
  | case2 n rd tl ih =>
    intro pr hpr seg hseg
    simp only [walkDirPairs] at hpr
    exact ih pr hpr seg hseg
  | case3 n cs tl ihcs ihtl =>
    intro pr hpr seg hseg
    simp only [walkDirPairs] at hpr
    rcases List.mem_append.mp hpr with hl | hr
    · split at hl
      · simp at hl
      · next hbad =>
        simp only [List.mem_map] at hl
        obtain ⟨q, hq, rfl⟩ := hl
        simp only [List.mem_cons] at hseg
        rcases hseg with rfl | hs
        · exact Bool.not_eq_true _ |>.mp hbad
        · rcases List.mem_append.mp hq with hqf | hqd
          · exact walkFilePairs_clean cs q hqf seg hs
          · exact ihcs q hqd seg hs
    · exact ihtl pr hr seg hseg

theorem itemPairs_clean (rootSegs : List String) (root : FSForest) (it : String)
    (hit : shouldExcludeName it = false) :
    ∀ pr ∈ itemPairs rootSegs root it, ∀ seg ∈ pr.1, shouldExcludeName seg = false := by
  intro pr hpr seg hseg
  cases hfc : findChild root it with
  | none => simp [itemPairs, hfc] at hpr
  | some t =>
    cases t with
    | file nm rd =>
      simp only [itemPairs, hfc] at hpr
      split at hpr
      · cases hpr
      · simp only [List.mem_singleton] at hpr
        subst hpr
        simp only [List.mem_singleton] at hseg
        subst hseg
        exact hit
    | dir nm cs =>
      simp only [itemPairs, hfc, List.mem_map] at hpr
      obtain ⟨q, hq, rfl⟩ := hpr
      simp only [List.mem_cons] at hseg
      rcases hseg with rfl | hs
      · exact hit
      · rcases List.mem_append.mp hq with h | h
        · exact walkFilePairs_clean cs q h seg hs
        · exact walkDirPairs_clean cs q h seg hs

theorem shouldExcludeName_fixed_items :
    ∀ it : String, it ∈ STORE_FILES ∨ it ∈ DOCS_FILES → shouldExcludeName it = false := by
  intro it h
  rcases h with h | h <;>
    simp only [STORE_FILES, DOCS_FILES, List.mem_cons, List.not_mem_nil, or_false] at h
  · rcases h with rfl | rfl | rfl <;> decide
  · rcases h with rfl | rfl | rfl | rfl <;> decide

/-- C2: every path segment of every entry the directory walk produces is
clean (no exclusion pattern matches it by exact name or wildcard suffix,
hence no entry path contains an excluded segment at any depth); a
directory whose name matches an exclusion is pruned before descent and
contributes nothing to the walk; and consequently, for any package built
from the fixed include lists, no archive entry contains an excluded
segment at any depth. -/
theorem walk_exclusion :
    (∀ ts : FSForest, ∀ pr ∈ walkPairs ts, ∀ seg ∈ pr.1,
      shouldExcludeName seg = false) ∧
    (∀ (n : String) (cs tl : FSForest), shouldExcludeName n = true →
      walkPairs (FSForest.cons (FSTree.dir n cs) tl) = walkPairs tl) ∧
    (∀ (rootSegs : List String) (root : FSForest) (files : List String),
      (∀ it ∈ files, it ∈ STORE_FILES ∨ it ∈ DOCS_FILES) →
      ∀ e ∈ packageEntries rootSegs root files, ∀ seg ∈ e,
        shouldExcludeName seg = false) := by
  refine ⟨?_, ?_, ?_⟩
  · intro ts pr hpr seg hseg
    rcases List.mem_append.mp hpr with h | h
    · exact walkFilePairs_clean ts pr h seg hseg
    · exact walkDirPairs_clean ts pr h seg hseg
  · intro n cs tl h
    simp [walkPairs, walkFilePairs, walkDirPairs, h]
  · intro rootSegs root files hf e he seg hseg
    simp only [packageEntries, List.mem_map] at he
    obtain ⟨pr, hpr, rfl⟩ := he
    rw [List.mem_flatMap] at hpr
    obtain ⟨it, hit, hpr'⟩ := hpr
    exact itemPairs_clean rootSegs root it
      (shouldExcludeName_fixed_items it (hf it hit)) pr hpr' seg hseg

/-- Closed witness for `walk_exclusion`: a sentinel file deep inside a
`node_modules` directory contributes nothing, a clean entry's segments
pass the exclusion test, and a concrete store build yields only clean
segments. -/
theorem walk_exclusion_witness :
    shouldExcludeName "app.js" = false ∧
    walkPairs (FSForest.cons (FSTree.dir "node_modules"
        (FSForest.cons (FSTree.file "big.bin" true) FSForest.nil))
      (FSForest.cons (FSTree.file "app.js" true) FSForest.nil)) =
      walkPairs (FSForest.cons (FSTree.file "app.js" true) FSForest.nil) ∧
    shouldExcludeName "manifest.json" = false :=
  ⟨walk_exclusion.1 (FSForest.cons (FSTree.file "app.js" true) FSForest.nil)
      (["app.js"], true) (by decide) "app.js" (by decide),
   walk_exclusion.2.1 "node_modules"
      (FSForest.cons (FSTree.file "big.bin" true) FSForest.nil)
      (FSForest.cons (FSTree.file "app.js" true) FSForest.nil) (by decide),
   walk_exclusion.2.2 ["", "proj"]
      (FSForest.cons (FSTree.file "manifest.json" true) FSForest.nil)
      ["manifest.json"] (by decide) ["manifest.json"] (by decide)
      "manifest.json" (by decide)⟩

theorem github_entries_eq_append (rootSegs : List String) (root : FSForest) :
    github_entries rootSegs root = store_entries rootSegs root ++
      packageEntries rootSegs root (get_existing_files root DOCS_FILES) := by
  simp [github_entries, store_entries, packageEntries, List.flatMap_append]

theorem should_exclude_append (rootSegs : List String) (item : String)
    (hroot : ∀ pat ∈ EXCLUDE_PATTERNS, rootSegs.contains pat = false)
    (hitem : shouldExcludeName item = false) :
    should_exclude (rootSegs ++ [item]) = false := by
  have hlast : (rootSegs ++ [item]).getLastD "" = item := List.getLastD_concat _ _ _
  have hitem' := hitem
  rw [shouldExcludeName, should_exclude, List.any_eq_false] at hitem'
  rw [should_exclude, List.any_eq_false]
  intro pat hpat
  have hpi := hitem' pat hpat
  simp only [Bool.not_eq_true] at hpi ⊢
  rw [hlast]
  have hlast1 : ([item] : List String).getLastD "" = item := rfl
  rw [hlast1] at hpi
  cases hw : pat.data.headD ' ' == '*' with
  | true =>
    rw [hw] at hpi
    simp only [cond_true] at hpi ⊢
    exact hpi
  | false =>
    rw [hw] at hpi
    simp only [cond_false] at hpi ⊢
    simp only [Bool.or_eq_false_iff] at hpi ⊢
    refine ⟨hpi.1, ?_⟩
    have happ : (rootSegs ++ [item]).contains pat =
        (rootSegs.contains pat || ([item] : List String).contains pat) := by
      simp [List.contains_eq_any_beq, List.any_append]
    rw [happ, hroot pat hpat, hpi.2]
    rfl

theorem packageEntries_cons (rootSegs : List String) (root : FSForest)
    (it : String) (rest : List String) :
    packageEntries rootSegs root (it :: rest) =
      (itemPairs rootSegs root it).map Prod.fst ++ packageEntries rootSegs root rest := by
  simp [packageEntries, List.flatMap_cons]

theorem packageEntries_files_of_clean (rootSegs : List String) (root : FSForest) :
    ∀ l : List String,
      (∀ it ∈ l, (∃ nm rd, findChild root it = some (FSTree.file nm rd)) ∧
        should_exclude (rootSegs ++ [it]) = false) →
      packageEntries rootSegs root l = l.map (fun it => [it]) := by
  intro l
  induction l with
  | nil => intro _; rfl
  | cons it rest ih =>
    intro h
    obtain ⟨⟨nm, rd, hfc⟩, hexc⟩ := h it (by simp)
    have hpairs : itemPairs rootSegs root it = [([it], rd)] := by
      simp [itemPairs, hfc, hexc]
    rw [packageEntries_cons, hpairs, ih (fun q hq => h q (List.mem_cons_of_mem it hq))]
    rfl

theorem shouldExcludeName_docs : ∀ it ∈ DOCS_FILES, shouldExcludeName it = false := by
  decide

/-- C4 amended: the store package's entry list is always a prefix of the
full package's (in particular a subset, entry for entry at the same
relative path); and when no segment of the project root's absolute path
matches an exclusion pattern and every existing documentation entry is a
plain file, the full package's extra entries are exactly the
documentation entries that exist on disk.  Without the root-path proviso
the exactness claim is false (see the counterexample). -/
theorem store_subset_full (rootSegs : List String) (root : FSForest) :
    (∀ e ∈ store_entries rootSegs root, e ∈ github_entries rootSegs root) ∧
    ((∀ pat ∈ EXCLUDE_PATTERNS, rootSegs.contains pat = false) →
     (∀ dd ∈ DOCS_FILES, ∀ t, findChild root dd = some t →
        ∃ nm rd, t = FSTree.file nm rd) →
     github_entries rootSegs root =
       store_entries rootSegs root ++
         (get_existing_files root DOCS_FILES).map (fun dd => [dd])) := by
  constructor
  · intro e he
    rw [github_entries_eq_append]
    exact List.mem_append_left _ he
  · intro hroot hdocs
    rw [github_entries_eq_append]
    congr 1
    apply packageEntries_files_of_clean
    intro it hit
    have hmem := List.mem_filter.mp hit
    have hdd : it ∈ DOCS_FILES := hmem.1
    have hsome : (findChild root it).isSome = true := by simpa using hmem.2
    obtain ⟨t, ht⟩ := Option.isSome_iff_exists.mp hsome
    obtain ⟨nm, rd, rfl⟩ := hdocs it hdd t ht
    refine ⟨⟨nm, rd, ht⟩, ?_⟩
    exact should_exclude_append rootSegs it hroot (shouldExcludeName_docs it hdd)

/-- C4 counterexample: with the project rooted at `/home/docs` — a path
whose segment `docs` matches an exclusion pattern — `README.md` exists on
disk, yet the full archive carries no extra entry at all (both file
entries are dropped by `_should_exclude`, which scans the whole source
path): the full package's extras are not the documentation entries that
exist on disk. -/
theorem store_subset_full_counterexample :
    (findChild (FSForest.cons (FSTree.file "manifest.json" true)
        (FSForest.cons (FSTree.file "README.md" true) FSForest.nil))
      "README.md").isSome = true ∧
    github_entries ["", "home", "docs"]
      (FSForest.cons (FSTree.file "manifest.json" true)
        (FSForest.cons (FSTree.file "README.md" true) FSForest.nil)) = [] ∧
    github_entries ["", "home", "docs"]
      (FSForest.cons (FSTree.file "manifest.json" true)
        (FSForest.cons (FSTree.file "README.md" true) FSForest.nil)) ≠
      store_entries ["", "home", "docs"]
        (FSForest.cons (FSTree.file "manifest.json" true)
          (FSForest.cons (FSTree.file "README.md" true) FSForest.nil)) ++
        (get_existing_files
          (FSForest.cons (FSTree.file "manifest.json" true)
            (FSForest.cons (FSTree.file "README.md" true) FSForest.nil))
          DOCS_FILES).map (fun dd => [dd]) := by
  refine ⟨by decide, by decide, by decide⟩

/-- Closed witness for `store_subset_full`: a clean root path, where the
full package is exactly the store package plus the existing docs. -/
theorem store_subset_full_witness :
    ["manifest.json"] ∈ github_entries ["", "home", "proj"]
      (FSForest.cons (FSTree.file "manifest.json" true)
        (FSForest.cons (FSTree.file "README.md" true) FSForest.nil)) ∧
    github_entries ["", "home", "proj"]
      (FSForest.cons (FSTree.file "manifest.json" true)
        (FSForest.cons (FSTree.file "README.md" true) FSForest.nil)) =
      store_entries ["", "home", "proj"]
        (FSForest.cons (FSTree.file "manifest.json" true)
          (FSForest.cons (FSTree.file "README.md" true) FSForest.nil)) ++
        (get_existing_files
          (FSForest.cons (FSTree.file "manifest.json" true)
            (FSForest.cons (FSTree.file "README.md" true) FSForest.nil))
          DOCS_FILES).map (fun dd => [dd]) := by
  refine ⟨?_, ?_⟩
  · exact (store_subset_full ["", "home", "proj"] _).1 ["manifest.json"] (by decide)
  · refine (store_subset_full ["", "home", "proj"] _).2 (by decide) ?_
    intro dd hdd t ht
    simp only [DOCS_FILES, List.mem_cons, List.not_mem_nil, or_false] at hdd
    rcases hdd with rfl | rfl | rfl | rfl <;>
      simp only [findChild, FSTree.name] at ht <;>
      first
        | (injection ht with h1; exact ⟨"README.md", true, h1.symm⟩)
        | cases ht

theorem itemPairs_head (rootSegs : List String) (root : FSForest) (it : String) :
    ∀ pr ∈ itemPairs rootSegs root it, pr.1.head? = some it := by
  intro pr hpr
  cases hfc : findChild root it with
  | none => simp [itemPairs, hfc] at hpr
  | some t =>
    cases t with
    | file nm rd =>
      simp only [itemPairs, hfc] at hpr
      split at hpr
      · cases hpr
      · simp only [List.mem_singleton] at hpr
        subst hpr
        rfl
    | dir nm cs =>
      simp only [itemPairs, hfc, List.mem_map] at hpr
      obtain ⟨q, _, rfl⟩ := hpr
      rfl

theorem itemPairs_of_missing (rootSegs : List String) (root : FSForest) (it : String)
    (h : findChild root it = none) : itemPairs rootSegs root it = [] := by
  simp [itemPairs, h]

/-- C9 amended: entries missing from the project root are silently
skipped (the package of a list equals the package of its existing
sublist; the model is total, so no error can arise), a missing entry
contributes no archive entry (no entry path starts with its name), and a
listed existing plain file whose full source path passes the exclusion
test does appear.  The claim's stronger form — every listed entry that
exists appears — fails for entries the exclusion rules match (see the
counterexample). -/
theorem create_package_missing_entries (rootSegs : List String) (root : FSForest)
    (files : List String) :
    (packageEntries rootSegs root files =
      packageEntries rootSegs root (get_existing_files root files)) ∧
    (∀ item ∈ files, findChild root item = none →
      ∀ e ∈ packageEntries rootSegs root files, e.head? ≠ some item) ∧
    (∀ item ∈ files, ∀ nm rd, findChild root item = some (FSTree.file nm rd) →
      should_exclude (rootSegs ++ [item]) = false →
      [item] ∈ packageEntries rootSegs root files) := by
  refine ⟨?_, ?_, ?_⟩
  · induction files with
    | nil => rfl
    | cons it rest ih =>
      cases hfc : findChild root it with
      | none =>
        rw [packageEntries_cons, itemPairs_of_missing rootSegs root it hfc]
        simpa [get_existing_files, List.filter_cons, hfc] using ih
      | some t =>
        rw [packageEntries_cons]
        have : get_existing_files root (it :: rest) =
            it :: get_existing_files root rest := by
          simp [get_existing_files, List.filter_cons, hfc]
        rw [this, packageEntries_cons, ih]
  · intro item _ hnone e he
    simp only [packageEntries, List.mem_map] at he
    obtain ⟨pr, hpr, rfl⟩ := he
    rw [List.mem_flatMap] at hpr
    obtain ⟨it', hit', hpr'⟩ := hpr
    intro hhead
    have hh := itemPairs_head rootSegs root it' pr hpr'
    rw [hh] at hhead
    injection hhead with heq
    subst heq
    rw [itemPairs_of_missing rootSegs root it' hnone] at hpr'
    cases hpr'
  · intro item hitem nm rd hfc hexc
    have hpairs : itemPairs rootSegs root item = [([item], rd)] := by
      simp [itemPairs, hfc, hexc]
    simp only [packageEntries, List.mem_map]
    refine ⟨([item], rd), ?_, rfl⟩
    rw [List.mem_flatMap]
    exact ⟨item, hitem, by rw [hpairs]; simp⟩

/-- C9 counterexample: `app.zip` is listed and exists at the project root,
yet the built archive omits it — it matches the wildcard exclusion
`*.zip` — so the archive does not include every listed entry that exists. -/
theorem listed_existing_entry_omitted :
    (findChild (FSForest.cons (FSTree.file "app.zip" true) FSForest.nil)
      "app.zip").isSome = true ∧
    packageEntries ["", "proj"] (FSForest.cons (FSTree.file "app.zip" true) FSForest.nil)
      ["app.zip"] = [] := by
  exact ⟨by decide, by decide⟩

/-- Closed witness for `create_package_missing_entries`: a spec list with
an existing `manifest.json` and a missing `CHANGELOG.md`. -/
theorem create_package_missing_entries_witness :
    (packageEntries ["", "proj"]
        (FSForest.cons (FSTree.file "manifest.json" true) FSForest.nil)
        ["manifest.json", "CHANGELOG.md"] =
      packageEntries ["", "proj"]
        (FSForest.cons (FSTree.file "manifest.json" true) FSForest.nil)
        (get_existing_files (FSForest.cons (FSTree.file "manifest.json" true) FSForest.nil)
          ["manifest.json", "CHANGELOG.md"])) ∧
    (["manifest.json"] : List String).head? ≠ some "CHANGELOG.md" ∧
    [("manifest.json" : String)] ∈ packageEntries ["", "proj"]
      (FSForest.cons (FSTree.file "manifest.json" true) FSForest.nil)
      ["manifest.json", "CHANGELOG.md"] := by
  refine ⟨(create_package_missing_entries _ _ _).1, ?_, ?_⟩
  · exact (create_package_missing_entries ["", "proj"]
      (FSForest.cons (FSTree.file "manifest.json" true) FSForest.nil)
      ["manifest.json", "CHANGELOG.md"]).2.1 "CHANGELOG.md" (by decide) rfl
      ["manifest.json"] (by decide)
  · exact (create_package_missing_entries ["", "proj"]
      (FSForest.cons (FSTree.file "manifest.json" true) FSForest.nil)
      ["manifest.json", "CHANGELOG.md"]).2.2 "manifest.json" (by decide)
      "manifest.json" true rfl (by decide)

/-! ## Claim theorems: build failure behaviour -/

/-- C6: when a file already exists at the output path and its removal
fails because the file is locked (PermissionError), `_create_package`
aborts with `SystemExit(1)` — a fatal, user-visible error with abnormal
exit status — before any archive is opened: nothing is written, and the
only filename ever targeted is the canonical
`{slug}-v{version}{suffix}.zip`, never a fallback name. -/
theorem locked_output_aborts (d : List (String × Json)) (cfg : BuildCfg)
    (files : List String) (suffix : String)
    (hex : cfg.targetExists = true) (hlock : cfg.targetLocked = true) :
    (create_package_run d cfg files suffix).2 = BuildResult.lockedAbort 1 ∧
    writtenArchive (create_package_run d cfg files suffix).2 = none ∧
    (create_package_run d cfg files suffix).1 = package_filename d suffix := by
  simp [create_package_run, hex, hlock, writtenArchive]

/-- Closed witness for `locked_output_aborts` at a concrete locked
configuration. -/
theorem locked_output_aborts_witness :
    (create_package_run [("name", Json.str "My Ext"), ("version", Json.str "1.2.3")]
      ⟨["", "proj"], FSForest.nil, true, true⟩ STORE_FILES "-store").2 =
      BuildResult.lockedAbort 1 ∧
    writtenArchive (create_package_run
      [("name", Json.str "My Ext"), ("version", Json.str "1.2.3")]
      ⟨["", "proj"], FSForest.nil, true, true⟩ STORE_FILES "-store").2 = none ∧
    (create_package_run [("name", Json.str "My Ext"), ("version", Json.str "1.2.3")]
      ⟨["", "proj"], FSForest.nil, true, true⟩ STORE_FILES "-store").1 =
      package_filename [("name", Json.str "My Ext"), ("version", Json.str "1.2.3")]
        "-store" :=
  locked_output_aborts [("name", Json.str "My Ext"), ("version", Json.str "1.2.3")]
    ⟨["", "proj"], FSForest.nil, true, true⟩ STORE_FILES "-store" rfl rfl

/-- C8 (code bug): when the second store file raises inside `zipf.write`,
the build raises — it does not succeed — but the `with` statement closes
the zip on the way out, leaving a closed, apparently valid archive on disk
at the output path containing only the entries written so far; the
intended entry list (third conjunct) shows the published archive is
half-built (it lacks `src/b.js`). -/
theorem mid_build_failure_partial_archive :
    (create_package_run [("name", Json.str "X"), ("version", Json.str "1.2.3")]
      ⟨["", "proj"],
       FSForest.cons (FSTree.file "manifest.json" true)
         (FSForest.cons (FSTree.dir "src"
           (FSForest.cons (FSTree.file "a.js" true)
             (FSForest.cons (FSTree.file "b.js" false) FSForest.nil))) FSForest.nil),
       false, false⟩
      ["manifest.json", "src"] "").2 =
      BuildResult.midFailure [["manifest.json"], ["src", "a.js"]] ∧
    writtenArchive (create_package_run [("name", Json.str "X"), ("version", Json.str "1.2.3")]
      ⟨["", "proj"],
       FSForest.cons (FSTree.file "manifest.json" true)
         (FSForest.cons (FSTree.dir "src"
           (FSForest.cons (FSTree.file "a.js" true)
             (FSForest.cons (FSTree.file "b.js" false) FSForest.nil))) FSForest.nil),
       false, false⟩
      ["manifest.json", "src"] "").2 = some [["manifest.json"], ["src", "a.js"]] ∧
    packageEntries ["", "proj"]
      (FSForest.cons (FSTree.file "manifest.json" true)
        (FSForest.cons (FSTree.dir "src"
          (FSForest.cons (FSTree.file "a.js" true)
            (FSForest.cons (FSTree.file "b.js" false) FSForest.nil))) FSForest.nil))
      ["manifest.json", "src"] =
      [["manifest.json"], ["src", "a.js"], ["src", "b.js"]] :=
  ⟨rfl, rfl, by decide⟩
